import Mathlib

/-!
Verification of the `streamv3` lazy pipeline engine (`SliceStreamer` in
`stream.go` / `MapStreamer` in `map_stream.go`).

The Go code is dynamically typed (`[]interface{}` with `reflect`); the
embedding fixes one element type `α` per pipeline (two, `κ` and `ν`, for a
map-sourced pipeline).  Machinery that only performs runtime type checking
(`curType`, the reflection checks in every builder) is not part of any claim
and is omitted; all data-flow and control-flow of the evaluated functions is
embedded faithfully.

The per-stage fork-join executor partitions the data into `parallel`
contiguous batches of `len/parallel` elements (remainder folded into the
last batch), runs one worker per batch, and concatenates the per-batch
results in ascending batch index order.  Workers are deterministic pure
functions of their batch, so the fork-join is embedded as a map over the
batch list followed by a concatenation, exactly mirroring the slot array
`results[goroutineID]` and the final concatenation loop.
-/

set_option maxRecDepth 8192

namespace StreamV3

/-- One node of the lazy pipeline chain: the fields of Go's `SliceStreamer`
struct (minus `curType`, which only drives reflection type checks).
`data` embeds the `dataGetter` payload; it is only consulted on the root
node, matching `scan`, which reads `dataGetter.getData()` of the chain's
last element only. -/
structure StageOps (α : Type) where
  parallel : Nat
  filterFunc : Option (List (α → Bool))
  mapFunc : Option (α → α)
  flatMapFunc : Option (α → List α)
  sortFunc : Option (α → α → Bool)
  offset : Nat
  limit : Nat
  data : List α

/-- The persistent chain: `root` is a node with `lastStreamer == nil`
(created by `OfSlice` or by the map-stream projections), `node` holds a
parent pointer (`lastStreamer`). -/
inductive SliceStreamer (α : Type) : Type where
  | root : StageOps α → SliceStreamer α
  | node : StageOps α → SliceStreamer α → SliceStreamer α

namespace SliceStreamer

/-- The own fields of a chain node. -/
def ops {α : Type} : SliceStreamer α → StageOps α
  | .root o => o
  | .node o _ => o

/-- The `lastStreamer` parent pointer (`none` on the root). -/
def lastStreamer {α : Type} : SliceStreamer α → Option (SliceStreamer α)
  | .root _ => none
  | .node _ p => some p

end SliceStreamer

/-- The contiguous batch partition of the fork-join executor: batch size is
`len/parallel`; worker `i` owns indices `[i*batch, i*batch+batch)`, and the
last worker's range is extended to `len` when the remainder would otherwise
be dropped (`if i == parallel-1 && end < len { end = len }`).  The element
range `data[start:end]` is `(data.take end).drop start`. -/
def batches {α : Type} (k : Nat) (data : List α) : List (List α) :=
  let n := data.length
  let b := n / k
  (List.range k).map (fun i =>
    let s := i * b
    let e := if i = k - 1 ∧ s + b < n then n else s + b
    (data.take e).drop s)

/-- `SliceStreamer.filter`: each worker runs every predicate on each element
of its batch, short-circuiting on the first `false`
(`isFilter = op[0].Bool(); if !isFilter { break }`), keeping the element only
if all predicates pass; per-batch outputs are concatenated in batch order.
An empty predicate list returns the data unchanged
(`if len(streamer.filterFunc) == 0 { return data }`). -/
def filterPar {α : Type} (fs : List (α → Bool)) (k : Nat) (data : List α) : List α :=
  if fs.isEmpty then data
  else ((batches k data).map (fun b => b.filter (fun x => fs.all (fun f => f x)))).flatten

/-- `SliceStreamer._map`: each worker applies the mapper to each element of
its batch in order; per-batch outputs are concatenated in batch order. -/
def mapPar {α : Type} (f : α → α) (k : Nat) (data : List α) : List α :=
  ((batches k data).map (fun b => b.map f)).flatten

/-- `SliceStreamer.flatMap`: each worker applies the flat-mapper to each
element of its batch and appends every item of the returned slice; per-batch
outputs are concatenated in batch order. -/
def flatMapPar {α : Type} (f : α → List α) (k : Nat) (data : List α) : List α :=
  ((batches k data).map (fun b => (b.map f).flatten)).flatten

/-- Insertion into a sorted prefix, driven by the user comparator used as a
strict "comes before" test. -/
def insertSorted {α : Type} (lt : α → α → Bool) (x : α) : List α → List α
  | [] => [x]
  | y :: ys => if lt x y then x :: y :: ys else y :: insertSorted lt x ys

/-- Deterministic model of `sort.Slice(newData, ...)` with the stage's
comparator as the less function: a comparison sort producing a sequence
sorted by the comparator.  (Go's `sort.Slice` is an unstable comparison
sort; no claim depends on which sorted permutation is produced, so the
model fixes insertion sort.) -/
def sortModel {α : Type} (lt : α → α → Bool) (data : List α) : List α :=
  data.foldr (insertSorted lt) []

/-- One iteration of the stage-replay loop in `SliceStreamer.scan`: apply,
in this order, filter (if the stage has one), flat-map, map, sort, each with
the stage's own parallelism. -/
def applyStage {α : Type} (o : StageOps α) (data : List α) : List α :=
  let d1 := match o.filterFunc with
    | none => data
    | some fs => filterPar fs o.parallel data
  let d2 := match o.flatMapFunc with
    | none => d1
    | some g => flatMapPar g o.parallel d1
  let d3 := match o.mapFunc with
    | none => d2
    | some f => mapPar f o.parallel d2
  match o.sortFunc with
  | none => d3
  | some lt => sortModel lt d3

namespace SliceStreamer

/-- The stage-replay part of `scan`: walk `lastStreamer` pointers to the
root, take the root's data, and replay every stage root-to-leaf.  (The Go
code collects `streamerList` and iterates it in reverse; direct structural
recursion computes the same fold.) -/
def applyChain {α : Type} : SliceStreamer α → List α
  | .root o => applyStage o o.data
  | .node o p => applyStage o p.applyChain

/-- The offset/limit windowing at the end of `scan`, applied once with the
leaf's values: `offset = streamer.offset` if it is `< len`, else `0`;
`limit = len-offset`, lowered to `streamer.limit` when that is positive and
smaller; result `newData[offset : offset+limit]`. -/
def windowOf {α : Type} (xs : List α) (o l : Nat) : List α :=
  (xs.drop (if o < xs.length then o else 0)).take
    (if 0 < l ∧ l < xs.length - (if o < xs.length then o else 0) then l
     else xs.length - (if o < xs.length then o else 0))

/-- `SliceStreamer.scan`: replay all stages root-to-leaf, then window with
the leaf's offset/limit. -/
def scan {α : Type} (s : SliceStreamer α) : List α :=
  windowOf s.applyChain s.ops.offset s.ops.limit

/-- `Count`: the length of the scanned result. -/
def Count {α : Type} (s : SliceStreamer α) : Nat :=
  s.scan.length

end SliceStreamer

/-- `OfSlice`: a fresh root stage over a copy of the source slice, with
parallelism 1, no operations, offset 0, limit 0. -/
def ofSlice {α : Type} (data : List α) : SliceStreamer α :=
  .root { parallel := 1, filterFunc := none, mapFunc := none,
          flatMapFunc := none, sortFunc := none, offset := 0, limit := 0,
          data := data }

namespace SliceStreamer

/-- `Filter`: allocate a new stage holding the predicate list, parent = the
receiver, inheriting parallel/offset/limit. -/
def Filter {α : Type} (s : SliceStreamer α) (fs : List (α → Bool)) : SliceStreamer α :=
  .node { parallel := s.ops.parallel, filterFunc := some fs, mapFunc := none,
          flatMapFunc := none, sortFunc := none, offset := s.ops.offset,
          limit := s.ops.limit, data := [] } s

/-- `Map`: allocate a new stage holding the mapper, parent = the receiver. -/
def Map {α : Type} (s : SliceStreamer α) (f : α → α) : SliceStreamer α :=
  .node { parallel := s.ops.parallel, filterFunc := none, mapFunc := some f,
          flatMapFunc := none, sortFunc := none, offset := s.ops.offset,
          limit := s.ops.limit, data := [] } s

/-- `FlatMap`: allocate a new stage holding the flat-mapper, parent = the
receiver. -/
def FlatMap {α : Type} (s : SliceStreamer α) (g : α → List α) : SliceStreamer α :=
  .node { parallel := s.ops.parallel, filterFunc := none, mapFunc := none,
          flatMapFunc := some g, sortFunc := none, offset := s.ops.offset,
          limit := s.ops.limit, data := [] } s

/-- `Sorted`: allocate a new stage holding the comparator, parent = the
receiver. -/
def Sorted {α : Type} (s : SliceStreamer α) (lt : α → α → Bool) : SliceStreamer α :=
  .node { parallel := s.ops.parallel, filterFunc := none, mapFunc := none,
          flatMapFunc := none, sortFunc := some lt, offset := s.ops.offset,
          limit := s.ops.limit, data := [] } s

/-- `Offset`: allocate a new stage with the new offset (callers must pass
`n > 0`; the code panics otherwise), parent = the receiver, inheriting the
limit. -/
def Offset {α : Type} (s : SliceStreamer α) (n : Nat) : SliceStreamer α :=
  .node { parallel := s.ops.parallel, filterFunc := none, mapFunc := none,
          flatMapFunc := none, sortFunc := none, offset := n,
          limit := s.ops.limit, data := [] } s

/-- `Limit`: allocate a new stage with the new limit (callers must pass
`n > 0`; the code panics otherwise), parent = the receiver, inheriting the
offset. -/
def Limit {α : Type} (s : SliceStreamer α) (n : Nat) : SliceStreamer α :=
  .node { parallel := s.ops.parallel, filterFunc := none, mapFunc := none,
          flatMapFunc := none, sortFunc := none, offset := s.ops.offset,
          limit := n, data := [] } s

/-- `Parallel`: clamp the degree to `[1, 2*NumCPU]` and assign it to the
receiver's own `parallel` field (`streamer.parallel = parallel;
return streamer`) — the receiver itself, updated in place, is returned; no
new stage is allocated.  `cpus` stands for `runtime.NumCPU()`. -/
def Parallel {α : Type} (s : SliceStreamer α) (p cpus : Nat) : SliceStreamer α :=
  let p1 := if p ≤ 0 then 1 else p
  let p2 := if p1 > cpus * 2 then cpus * 2 else p1
  match s with
  | .root o => .root { o with parallel := p2 }
  | .node o parent => .node { o with parallel := p2 } parent

end SliceStreamer

/-- The window exactly as claim C1 states it: the slice starting at
`min(o,n)` with length `min(l, n-min(o,n))` when `l>0` and length
`n-min(o,n)` when `l=0`. -/
def claimWindow {α : Type} (xs : List α) (o l : Nat) : List α :=
  (xs.drop (min o xs.length)).take
    (if 0 < l then min l (xs.length - min o xs.length)
     else xs.length - min o xs.length)

/-- The window the code actually computes: the starting offset is `o` when
`o < n` and `0` when `o ≥ n` (an out-of-range offset is ignored, not
saturated), with the claim's length rule relative to that start. -/
def amendedWindow {α : Type} (xs : List α) (o l : Nat) : List α :=
  (xs.drop (if o < xs.length then o else 0)).take
    (if 0 < l then min l (xs.length - (if o < xs.length then o else 0))
     else xs.length - (if o < xs.length then o else 0))

/-- The clamp `Parallel` applies: at least 1, at most `2*NumCPU`. -/
def clampParallel (p cpus : Nat) : Nat :=
  let p1 := if p ≤ 0 then 1 else p
  if p1 > cpus * 2 then cpus * 2 else p1

/-- `SliceStreamer.indexAt`: `if len(scanResult) <= index { return false }`,
otherwise write `scanResult[index]` and return true — where the read
`scanResult[index]` panics when `index` is negative (the guard only rules
out `index ≥ len`).  Go's `int` index may be negative (`Last` passes
`len(scanResult)-1`), so the index is embedded as `Int`; a Go panic
(out-of-range slice read) is an `Except.error`. -/
def indexAtImpl {α : Type} (index : Int) (scanResult : List α) :
    Except String (Bool × Option α) :=
  if (scanResult.length : Int) ≤ index then .ok (false, none)
  else if index < 0 then .error "panic: runtime error: index out of range"
  else .ok (true, scanResult.get? index.toNat)

namespace SliceStreamer

/-- `First`: full evaluation, then pick index 0. -/
def First {α : Type} (s : SliceStreamer α) : Except String (Bool × Option α) :=
  indexAtImpl 0 s.scan

/-- `Last`: full evaluation, then pick index `len-1` (computed in `int`, so
`-1` on an empty result). -/
def Last {α : Type} (s : SliceStreamer α) : Except String (Bool × Option α) :=
  indexAtImpl ((s.scan.length : Int) - 1) s.scan

/-- `IndexAt`: full evaluation, then pick the given index. -/
def IndexAt {α : Type} (s : SliceStreamer α) (index : Int) :
    Except String (Bool × Option α) :=
  indexAtImpl index s.scan

end SliceStreamer

/-- `SliceStreamer.reduce`: evaluate; an empty result leaves the caller's
storage (`iv`, the seed) unchanged; a single element is written directly,
bypassing the accumulator; otherwise `baseVal` starts at the seed and the
loop folds the accumulator left-to-right over every element. -/
def reduceImpl {α : Type} (f : α → α → α) (iv : α) (data : List α) : α :=
  if data.length = 0 then iv
  else if data.length = 1 then data.headD iv
  else data.foldl f iv

/-- `Reduce`: the terminal operation (destination bookkeeping aside). -/
def SliceStreamer.Reduce {α : Type} (s : SliceStreamer α) (f : α → α → α)
    (iv : α) : α :=
  reduceImpl f iv s.scan

/-!  `toMap` and `groupBy`.

Go maps are embedded extensionally as functions `κ → Option _` (`none` =
key absent).  A worker's local map insert is an overwrite
(`curGoroutineMap[key] = scanResult[j]` for to-map, append for group-by);
after the join, slot maps are merged into the destination sequentially by
ascending batch index.  The Go merge loops (`for k, v := range slotMap`)
iterate a local map's keys in unspecified order, but each key occurs once
per local map, so the merged destination is the same function whatever
order the keys are visited in; the embedding therefore writes the merge as
a pointwise override/append. -/

/-- Overwriting insertion into a to-map destination
(`curGoroutineMap[key] = elem` / `val.SetMapIndex(k, v)`). -/
def mapInsert {κ α : Type} [DecidableEq κ] (m : κ → Option α) (key : κ)
    (v : α) : κ → Option α :=
  fun k => if k = key then some v else m k

/-- A to-map worker's local map over its batch: ascending-index overwrite
starting from the empty map. -/
def localToMap {κ α : Type} [DecidableEq κ] (keyer : α → κ) (b : List α) :
    κ → Option α :=
  b.foldl (fun m x => mapInsert m (keyer x) x) (fun _ => none)

/-- The to-map merge of one worker's local map into the accumulating
destination: every key present in the local map is overwritten into the
destination, all other keys are untouched. -/
def mapOverride {κ α : Type} (acc loc : κ → Option α) : κ → Option α :=
  fun k => match loc k with
    | some v => some v
    | none => acc k

/-- `SliceStreamer.toMap`: partition into batches, build one local map per
worker, then merge the slot maps into the destination `m0` in ascending
batch index order. -/
def toMapPar {κ α : Type} [DecidableEq κ] (keyer : α → κ) (deg : Nat)
    (data : List α) (m0 : κ → Option α) : κ → Option α :=
  ((batches deg data).map (localToMap keyer)).foldl mapOverride m0

/-- Appending insertion into a group-by destination: the element is appended
after whatever list the key already holds. -/
def groupInsert {κ α : Type} [DecidableEq κ] (m : κ → List α) (key : κ)
    (v : α) : κ → List α :=
  fun k => if k = key then m key ++ [v] else m k

/-- A group-by worker's local map over its batch: ascending-index append
starting from the empty map. -/
def localGroup {κ α : Type} [DecidableEq κ] (keyer : α → κ) (b : List α) :
    κ → List α :=
  b.foldl (fun m x => groupInsert m (keyer x) x) (fun _ => [])

/-- The group-by merge of one worker's local map into the accumulating
destination: for every key the worker saw, its local list is appended after
the destination's existing list for that key (a fresh empty list if the key
was absent); other keys are untouched. -/
def groupMerge {κ α : Type} (acc : κ → Option (List α)) (loc : κ → List α) :
    κ → Option (List α) :=
  fun k => if (loc k).isEmpty then acc k else some (((acc k).getD []) ++ loc k)

/-- The sequential effect of merging one element into a group-by
destination. -/
def groupStep {κ α : Type} [DecidableEq κ] (keyer : α → κ)
    (acc : κ → Option (List α)) (x : α) : κ → Option (List α) :=
  fun k => if k = keyer x then some (((acc k).getD []) ++ [x]) else acc k

/-- `SliceStreamer.groupBy`: partition into batches, build one local
key→list map per worker, then merge the slot maps into the destination `m0`
in ascending batch index order. -/
def groupByPar {κ α : Type} [DecidableEq κ] (keyer : α → κ) (deg : Nat)
    (data : List α) (m0 : κ → Option (List α)) : κ → Option (List α) :=
  ((batches deg data).map (localGroup keyer)).foldl groupMerge m0

/-- `ToMap`: full evaluation, then `toMap` with the leaf's parallelism into
the caller's destination map. -/
def SliceStreamer.ToMap {κ α : Type} [DecidableEq κ] (s : SliceStreamer α)
    (keyer : α → κ) (m0 : κ → Option α) : κ → Option α :=
  toMapPar keyer s.ops.parallel s.scan m0

/-- `GroupBy`: full evaluation, then `groupBy` with the leaf's parallelism
into the caller's destination map. -/
def SliceStreamer.GroupBy {κ α : Type} [DecidableEq κ] (s : SliceStreamer α)
    (keyer : α → κ) (m0 : κ → Option (List α)) : κ → Option (List α) :=
  groupByPar keyer s.ops.parallel s.scan m0

/-!  The map-sourced pipeline (`MapStreamer`) and its keys/values
projections.

A map pipeline's element is a (key, value) pair; its stages carry a filter
list (`func(K, V) bool`), and possibly a map or flat-map transform (set by
`MapStreamer.Map`/`FlatMap`, which hand evaluation off to a slice pipeline).
`KeysToStream`/`ValuesToStream` walk the chain to the root, replay **only**
the filter stages (their loops test `filterFunc` alone), project the
surviving pairs to keys or values, and wrap the projected data in a fresh
root `SliceStreamer` carrying the leaf's parallelism, no operations and
offset/limit 0. -/

/-- The fields of Go's `MapStreamer` struct (minus the two `curType`
descriptors); `β` is the output element type of a possible map/flat-map
transform.  `pairData` is only consulted on the root node. -/
structure MapStageOps (κ ν β : Type) where
  parallel : Nat
  filterFunc : Option (List (κ → ν → Bool))
  mapFunc : Option (κ → ν → β)
  flatMapFunc : Option (κ → ν → List β)
  pairData : List (κ × ν)

/-- The map-pipeline chain, linked through `lastStreamer`. -/
inductive MapStreamer (κ ν β : Type) : Type where
  | root : MapStageOps κ ν β → MapStreamer κ ν β
  | node : MapStageOps κ ν β → MapStreamer κ ν β → MapStreamer κ ν β

namespace MapStreamer

/-- The own fields of a map-chain node. -/
def mops {κ ν β : Type} : MapStreamer κ ν β → MapStageOps κ ν β
  | .root o => o
  | .node o _ => o

/-- The uncurried per-pair predicates: each Go filter is called as
`filter(pair.key, pair.value)`. -/
def pairPreds {κ ν : Type} (fs : List (κ → ν → Bool)) :
    List (κ × ν → Bool) :=
  fs.map (fun f => fun pr => f pr.1 pr.2)

/-- One stage of the keys/values walk: apply the stage's filters (with the
stage's parallelism, through the same fork-join `filter` as the slice
pipeline) when the stage has any, else pass through. -/
def applyFilterStage {κ ν β : Type} (o : MapStageOps κ ν β)
    (d : List (κ × ν)) : List (κ × ν) :=
  match o.filterFunc with
  | none => d
  | some fs => filterPar (pairPreds fs) o.parallel d

/-- The filters-only chain replay of `KeysToStream`/`ValuesToStream`: walk
to the root, take the root's pair data, and apply each stage's filters
root-to-leaf, ignoring every `mapFunc`/`flatMapFunc` along the way. -/
def filteredPairs {κ ν β : Type} : MapStreamer κ ν β → List (κ × ν)
  | .root o => applyFilterStage o o.pairData
  | .node o p => applyFilterStage o p.filteredPairs

end MapStreamer

/-- The fresh root stage the projections return: the given data, the given
(leaf's) parallelism, no parent, no operations, offset/limit 0. -/
def projectedRoot {α : Type} (p : Nat) (d : List α) : SliceStreamer α :=
  .root { parallel := p, filterFunc := none, mapFunc := none,
          flatMapFunc := none, sortFunc := none, offset := 0, limit := 0,
          data := d }

namespace MapStreamer

/-- `KeysToStream`: filters-only replay, project every surviving pair to its
key, and root a fresh slice pipeline at that data (leaf's parallelism, no
operations, offset/limit 0, no parent). -/
def KeysToStream {κ ν β : Type} (s : MapStreamer κ ν β) : SliceStreamer κ :=
  projectedRoot s.mops.parallel (s.filteredPairs.map Prod.fst)

/-- `ValuesToStream`: same walk, projecting every surviving pair to its
value. -/
def ValuesToStream {κ ν β : Type} (s : MapStreamer κ ν β) : SliceStreamer ν :=
  projectedRoot s.mops.parallel (s.filteredPairs.map Prod.snd)

/-- The specification-side replay, written from the spec's words: walk the
same chain but apply **only** the filter stages found along the path,
sequentially — a pair survives a stage when every one of that stage's
predicates returns true on its key and value. -/
def seqFilteredPairs {κ ν β : Type} : MapStreamer κ ν β → List (κ × ν)
  | .root o =>
      match o.filterFunc with
      | none => o.pairData
      | some fs => o.pairData.filter (fun pr => fs.all (fun f => f pr.1 pr.2))
  | .node o p =>
      match o.filterFunc with
      | none => p.seqFilteredPairs
      | some fs =>
          p.seqFilteredPairs.filter (fun pr => fs.all (fun f => f pr.1 pr.2))

/-- Erase every map/flat-map transform on the chain, keeping filters,
parallelism and data. -/
def eraseTransforms {κ ν β : Type} : MapStreamer κ ν β → MapStreamer κ ν β
  | .root o => .root { o with mapFunc := none, flatMapFunc := none }
  | .node o p =>
      .node { o with mapFunc := none, flatMapFunc := none } p.eraseTransforms

/-- Every stage on the chain has parallelism at least 1 (which `OfMap` and
the `Parallel` clamp guarantee for every reachable pipeline). -/
def wfParallel {κ ν β : Type} : MapStreamer κ ν β → Bool
  | .root o => 1 ≤ o.parallel
  | .node o p => (1 ≤ o.parallel) && p.wfParallel

end MapStreamer

/-- A concrete map pipeline used as a test fixture: a root over three pairs
followed by a stage carrying both a filter (drop key 2) and a map
transform. -/
def sampleMapPipeline : MapStreamer Nat Nat Nat :=
  .node { parallel := 2, filterFunc := some [fun k _ => decide (k ≠ 2)],
          mapFunc := some (fun k v => k + v), flatMapFunc := none,
          pairData := [] }
    (.root { parallel := 1, filterFunc := none, mapFunc := none,
             flatMapFunc := none, pairData := [(1, 10), (2, 20), (3, 30)] })

-- sanity checks against the Go tests (fixture: 4 users, ages 15/15/20/25)
example :
    ((ofSlice [15, 15, 20, 25]).Filter [fun a => decide (18 ≤ a)]).scan
      = [20, 25] := by decide

example : ((ofSlice [1, 2, 3, 4]).Offset 1).scan = [2, 3, 4] := by decide

example : (((ofSlice [1, 2, 3, 4]).Offset 1).Limit 2).scan = [2, 3] := by decide

example :
    ((ofSlice [1, 2, 3]).Map (fun a => a * 10)).scan = [10, 20, 30] := by decide

example :
    ((ofSlice [1, 2, 3]).FlatMap (fun a => [a, a + 1])).scan
      = [1, 2, 2, 3, 3, 4] := by decide

example :
    (((ofSlice [1, 2, 3, 4]).Parallel 3 4).Map (fun a => a + 1)).scan
      = [2, 3, 4, 5] := by decide

example :
    (ofSlice [15, 15, 20, 25]).GroupBy (fun a => a) (fun _ => none) 15
      = some [15, 15] := by decide

example :
    (((ofSlice [1, 2, 3, 4]).Parallel 3 4).ToMap (fun a => a % 2)
      (fun _ => none)) 0 = some 4 := by decide

example :
    sampleMapPipeline.KeysToStream.scan = [1, 3] := by decide

/-!  The batch partition reassembles the input: concatenating the `k`
contiguous worker ranges in ascending batch index order gives back the
original sequence. -/

theorem flatten_range_map_take {α : Type} (data : List α) (b : Nat) :
    ∀ m, ((List.range m).map (fun i => (data.drop (i * b)).take b)).flatten
      = data.take (m * b) := by
  intro m
  induction m with
  | zero => simp
  | succ m ih =>
      rw [List.range_succ, List.map_append, List.flatten_append, ih]
      simp only [List.map_cons, List.map_nil, List.flatten_cons,
        List.flatten_nil, List.append_nil]
      rw [Nat.succ_mul, List.take_add]

theorem segment_eq_drop_take {α : Type} (data : List α) (s b : Nat) :
    (data.take (s + b)).drop s = (data.drop s).take b := by
  rw [List.drop_take]
  congr 1
  omega

theorem flatten_batches {α : Type} {k : Nat} (hk : 1 ≤ k) (data : List α) :
    (batches k data).flatten = data := by
  obtain ⟨k', rfl⟩ : ∃ k', k = k' + 1 := ⟨k - 1, by omega⟩
  unfold batches
  set n := data.length with hn
  set b := n / (k' + 1) with hb
  rw [List.range_succ, List.map_append, List.flatten_append]
  have hmain :
      ((List.range k').map (fun i =>
        (data.take (if i = k' + 1 - 1 ∧ i * b + b < n then n else i * b + b)).drop (i * b))).flatten
        = data.take (k' * b) := by
    rw [List.map_congr_left (g := fun i => (data.drop (i * b)).take b)]
    · exact flatten_range_map_take data b k'
    · intro i hi
      have hik : i < k' := List.mem_range.mp hi
      have : ¬ (i = k' + 1 - 1 ∧ i * b + b < n) := by
        intro ⟨h1, _⟩; omega
      rw [if_neg this, segment_eq_drop_take]
  rw [hmain]
  have hkb : (k' + 1) * b ≤ n := by
    have := Nat.div_mul_le_self n (k' + 1)
    calc (k' + 1) * b = n / (k' + 1) * (k' + 1) := by rw [hb]; ring
    _ ≤ n := this
  have hlast :
      (data.take (if k' = k' + 1 - 1 ∧ k' * b + b < n then n else k' * b + b)).drop (k' * b)
        = data.drop (k' * b) := by
    by_cases hrem : k' * b + b < n
    · rw [if_pos ⟨by omega, hrem⟩, hn, List.take_length]
    · rw [if_neg (by intro ⟨_, h2⟩; exact hrem h2)]
      have : n ≤ k' * b + b := by
        have : (k' + 1) * b = k' * b + b := by ring
        omega
      rw [List.take_of_length_le (by omega)]
  simp only [List.map_cons, List.map_nil, List.flatten_cons, List.flatten_nil,
    List.append_nil, hlast]
  exact List.take_append_drop _ data

theorem flatten_map_filter {α : Type} (bs : List (List α)) (p : α → Bool) :
    (bs.map (fun b => b.filter p)).flatten = bs.flatten.filter p := by
  induction bs with
  | nil => rfl
  | cons b bs ih =>
      simp only [List.map_cons, List.flatten_cons, List.filter_append, ih]

theorem flatten_map_flatMap {α : Type} (bs : List (List α)) (g : α → List α) :
    (bs.map (fun b => (b.map g).flatten)).flatten = (bs.flatten.map g).flatten := by
  induction bs with
  | nil => rfl
  | cons b bs ih => simp [ih]

/-- A filter stage at parallelism `k ≥ 1` computes the sequential filter by
the conjunction of its predicates. -/
theorem filterPar_eq_seq {α : Type} (fs : List (α → Bool)) {k : Nat}
    (hk : 1 ≤ k) (data : List α) :
    filterPar fs k data = data.filter (fun x => fs.all (fun f => f x)) := by
  unfold filterPar
  by_cases hfs : fs.isEmpty
  · rw [if_pos hfs]
    have : fs = [] := List.isEmpty_iff.mp hfs
    subst this
    simp
  · rw [if_neg hfs, flatten_map_filter, flatten_batches hk]

/-- A map stage at parallelism `k ≥ 1` computes the sequential map. -/
theorem mapPar_eq_seq {α : Type} (f : α → α) {k : Nat} (hk : 1 ≤ k)
    (data : List α) :
    mapPar f k data = data.map f := by
  unfold mapPar
  rw [← List.map_flatten, flatten_batches hk]

/-- A flat-map stage at parallelism `k ≥ 1` computes the sequential
flat-map. -/
theorem flatMapPar_eq_seq {α : Type} (g : α → List α) {k : Nat} (hk : 1 ≤ k)
    (data : List α) :
    flatMapPar g k data = (data.map g).flatten := by
  unfold flatMapPar
  rw [flatten_map_flatMap, flatten_batches hk]

/-- C2: for a fixed input sequence and fixed operations, executing an
elementwise stage (filter, map, flat-map) with any valid parallelism degree
`k ≥ 1` — contiguous batches of `len/k` elements, remainder folded into the
last batch, one worker per batch, per-batch results concatenated in
ascending batch index order — returns a result identical in order and
contents to sequential execution with parallelism 1, so terminal results
never depend on the parallelism degree chosen. -/
theorem parallelism_invariance {α : Type} (fs : List (α → Bool)) (f : α → α)
    (g : α → List α) (data : List α) (k : Nat) (hk : 1 ≤ k) :
    filterPar fs k data = filterPar fs 1 data ∧
    mapPar f k data = mapPar f 1 data ∧
    flatMapPar g k data = flatMapPar g 1 data := by
  refine ⟨?_, ?_, ?_⟩
  · rw [filterPar_eq_seq fs hk, filterPar_eq_seq fs (le_refl 1)]
  · rw [mapPar_eq_seq f hk, mapPar_eq_seq f (le_refl 1)]
  · rw [flatMapPar_eq_seq g hk, flatMapPar_eq_seq g (le_refl 1)]

/-- Witness for C2 at a concrete input: 5 elements, degree 3 versus 1. -/
theorem parallelism_invariance_witness :
    1 ≤ 3 ∧
    (filterPar [fun a => Nat.ble 2 a] 3 [1, 2, 3, 4, 5]
        = filterPar [fun a => Nat.ble 2 a] 1 [1, 2, 3, 4, 5] ∧
      mapPar (fun a => a + 1) 3 [1, 2, 3, 4, 5]
        = mapPar (fun a => a + 1) 1 [1, 2, 3, 4, 5] ∧
      flatMapPar (fun a => [a, a]) 3 [1, 2, 3, 4, 5]
        = flatMapPar (fun a => [a, a]) 1 [1, 2, 3, 4, 5]) :=
  ⟨by decide,
   parallelism_invariance [fun a => Nat.ble 2 a] (fun a => a + 1)
     (fun a => [a, a]) [1, 2, 3, 4, 5] 3 (by decide)⟩

/-- C1 counterexample: on the two-element source `[1, 2]` with leaf offset 5
(and limit 0), `scan` returns the whole sequence `[1, 2]`, but the claim's
window formula (`min(5, 2) = 2`, so an empty slice) demands `[]`. -/
theorem claim_window_fails_on_large_offset :
    ¬ (((ofSlice [1, 2]).Offset 5).scan
        = claimWindow ((ofSlice [1, 2]).Offset 5).applyChain 5 0) := by
  decide

/-- C1 (amended): for every pipeline, the scanned sequence — which every
terminal operation consumes — is exactly the window of the fully-transformed
sequence determined by the leaf stage's offset `o` and limit `l`: the slice
starting at `o` when `o < n` and at `0` when `o ≥ n`, with length
`min(l, n-o')` when `l > 0` and `n-o'` when `l = 0`; `Count` is its length.
Only the leaf's stored offset/limit values enter this computation. -/
theorem scan_eq_amended_window {α : Type} (s : SliceStreamer α) :
    s.scan = amendedWindow s.applyChain s.ops.offset s.ops.limit ∧
    s.Count = (amendedWindow s.applyChain s.ops.offset s.ops.limit).length := by
  have h : s.scan = amendedWindow s.applyChain s.ops.offset s.ops.limit := by
    unfold SliceStreamer.scan SliceStreamer.windowOf amendedWindow
    congr 1
    split_ifs <;> omega
  exact ⟨h, by rw [SliceStreamer.Count, h]⟩

/-- C3 counterexample: `Parallel` does not allocate a new stage referencing
the receiver as its parent — on the root pipeline `ofSlice [1, 2, 3]`, the
stage returned by `Parallel 2` (with 4 CPUs) has no parent at all, and in
addition its `parallel` field differs from the receiver's original value, so
the receiver (which `Parallel` returns, mutated) is changed. -/
theorem parallel_builder_not_persistent :
    ¬ (((ofSlice [1, 2, 3] : SliceStreamer Nat).Parallel 2 4).lastStreamer
        = some (ofSlice [1, 2, 3])) ∧
    ((ofSlice [1, 2, 3] : SliceStreamer Nat).Parallel 2 4).ops.parallel
      ≠ (ofSlice [1, 2, 3] : SliceStreamer Nat).ops.parallel := by
  constructor
  · intro h
    simp [ofSlice, SliceStreamer.Parallel, SliceStreamer.lastStreamer] at h
  · decide

/-- C3 (amended): `Filter`, `Map`, `FlatMap`, `Sorted`, `Offset` and `Limit`
each allocate and return a new stage node whose parent is the receiver and
whose fields are the receiver's inherited `parallel`/`offset`/`limit` (with
the one overridden field and the one stored operation), leaving the receiver
— embedded intact as the parent — unchanged, so any stage can be reused as
the parent of multiple independent sub-pipelines; `Parallel`, however,
overwrites the `parallel` field of the receiver itself and returns the
receiver (same parent pointer, no new node). -/
theorem builders_allocate_child_except_parallel {α : Type}
    (s : SliceStreamer α) (fs : List (α → Bool)) (f : α → α)
    (g : α → List α) (lt : α → α → Bool) (n m p cpus : Nat) :
    (s.Filter fs).lastStreamer = some s ∧
    (s.Filter fs).ops =
      { parallel := s.ops.parallel, filterFunc := some fs, mapFunc := none,
        flatMapFunc := none, sortFunc := none, offset := s.ops.offset,
        limit := s.ops.limit, data := [] } ∧
    (s.Map f).lastStreamer = some s ∧
    (s.Map f).ops =
      { parallel := s.ops.parallel, filterFunc := none, mapFunc := some f,
        flatMapFunc := none, sortFunc := none, offset := s.ops.offset,
        limit := s.ops.limit, data := [] } ∧
    (s.FlatMap g).lastStreamer = some s ∧
    (s.FlatMap g).ops =
      { parallel := s.ops.parallel, filterFunc := none, mapFunc := none,
        flatMapFunc := some g, sortFunc := none, offset := s.ops.offset,
        limit := s.ops.limit, data := [] } ∧
    (s.Sorted lt).lastStreamer = some s ∧
    (s.Sorted lt).ops =
      { parallel := s.ops.parallel, filterFunc := none, mapFunc := none,
        flatMapFunc := none, sortFunc := some lt, offset := s.ops.offset,
        limit := s.ops.limit, data := [] } ∧
    (s.Offset n).lastStreamer = some s ∧
    (s.Offset n).ops =
      { parallel := s.ops.parallel, filterFunc := none, mapFunc := none,
        flatMapFunc := none, sortFunc := none, offset := n,
        limit := s.ops.limit, data := [] } ∧
    (s.Limit m).lastStreamer = some s ∧
    (s.Limit m).ops =
      { parallel := s.ops.parallel, filterFunc := none, mapFunc := none,
        flatMapFunc := none, sortFunc := none, offset := s.ops.offset,
        limit := m, data := [] } ∧
    (s.Parallel p cpus).lastStreamer = s.lastStreamer ∧
    (s.Parallel p cpus).ops = { s.ops with parallel := clampParallel p cpus } := by
  refine ⟨rfl, rfl, rfl, rfl, rfl, rfl, rfl, rfl, rfl, rfl, rfl, rfl, ?_, ?_⟩
  · cases s <;> rfl
  · cases s <;> rfl

/-- C5: the claim's success cases do hold — each of `First`, `Last` and
`IndexAt i` runs a full evaluation and picks index `0`, `len-1` or `i` with
a found/not-found indicator, and `IndexAt i` with `i ≥ len` returns
not-found — but `Last` on a pipeline whose evaluated sequence is empty does
not return not-found: it passes `len-1 = -1`, the `len <= index` guard does
not catch a negative index, and the read `scanResult[-1]` panics.  On the
concrete empty-result pipeline `ofSlice [] : SliceStreamer Nat`, `First`
returns not-found but `Last` panics. -/
theorem last_panics_on_empty_result :
    (ofSlice ([] : List Nat)).Last
        = .error "panic: runtime error: index out of range" ∧
    (ofSlice ([] : List Nat)).First = .ok (false, none) ∧
    (ofSlice [1, 2]).IndexAt 2 = .ok (false, none) ∧
    (ofSlice [1, 2]).IndexAt 1 = .ok (true, some 2) ∧
    (ofSlice [1, 2]).Last = .ok (true, some 2) :=
  ⟨rfl, rfl, rfl, rfl, rfl⟩

/-- C6: `Reduce` with a two-argument same-type accumulator and a
caller-provided seed: an empty evaluated sequence leaves the caller's result
storage (the seed value) unchanged; a single-element sequence sets the
result to that element without consulting the accumulator (the result does
not depend on `f` at all); and with two or more elements the result is the
left-to-right fold combining the seed with the first element, then that
result with the second, through the last. -/
theorem reduce_cases {α : Type} (s : SliceStreamer α) (f : α → α → α)
    (iv : α) :
    (s.scan = [] → s.Reduce f iv = iv) ∧
    (∀ a, s.scan = [a] → s.Reduce f iv = a ∧
      ∀ g : α → α → α, s.Reduce f iv = s.Reduce g iv) ∧
    (2 ≤ s.scan.length → s.Reduce f iv = s.scan.foldl f iv) := by
  refine ⟨?_, ?_, ?_⟩
  · intro h
    simp [SliceStreamer.Reduce, reduceImpl, h]
  · intro a h
    constructor
    · simp [SliceStreamer.Reduce, reduceImpl, h]
    · intro g
      simp [SliceStreamer.Reduce, reduceImpl, h]
  · intro h
    have h0 : ¬ s.scan.length = 0 := by omega
    have h1 : ¬ s.scan.length = 1 := by omega
    simp [SliceStreamer.Reduce, reduceImpl, h0, h1]

/-- Witness for C6 on concrete pipelines: empty result, singleton result,
and a four-element result folded with addition from seed 0
(matching the Go test summing ages 15+15+20+25 from a zero seed). -/
theorem reduce_cases_witness :
    (ofSlice ([] : List Nat)).Reduce (· + ·) 7 = 7 ∧
    (ofSlice [5]).Reduce (· + ·) 7 = 5 ∧
    (ofSlice [15, 15, 20, 25]).Reduce (· + ·) 0
      = (ofSlice [15, 15, 20, 25]).scan.foldl (· + ·) 0 :=
  ⟨(reduce_cases (ofSlice ([] : List Nat)) (· + ·) 7).1 rfl,
   ((reduce_cases (ofSlice [5]) (· + ·) 7).2.1 5 rfl).1,
   (reduce_cases (ofSlice [15, 15, 20, 25]) (· + ·) 0).2.2 (by decide)⟩

/-!  The merge of a worker's local map is the sequential fold of its batch. -/

theorem mapOverride_foldl {κ α : Type} [DecidableEq κ] (keyer : α → κ)
    (b : List α) :
    ∀ (m : κ → Option α) (acc : κ → Option α),
      mapOverride acc (b.foldl (fun m x => mapInsert m (keyer x) x) m)
        = b.foldl (fun m x => mapInsert m (keyer x) x) (mapOverride acc m) := by
  induction b with
  | nil => intro m acc; rfl
  | cons x xs ih =>
      intro m acc
      simp only [List.foldl_cons]
      rw [ih]
      congr 1
      funext k
      by_cases hk : k = keyer x
      · simp [mapOverride, mapInsert, hk]
      · simp [mapOverride, mapInsert, hk]

theorem mapOverride_localToMap {κ α : Type} [DecidableEq κ] (keyer : α → κ)
    (b : List α) (acc : κ → Option α) :
    mapOverride acc (localToMap keyer b)
      = b.foldl (fun m x => mapInsert m (keyer x) x) acc := by
  rw [localToMap, mapOverride_foldl]
  congr 1

theorem toMapPar_eq_seq_fold {κ α : Type} [DecidableEq κ] (keyer : α → κ)
    (bs : List (List α)) :
    ∀ m0 : κ → Option α,
      ((bs.map (localToMap keyer)).foldl mapOverride m0)
        = bs.flatten.foldl (fun m x => mapInsert m (keyer x) x) m0 := by
  induction bs with
  | nil => intro m0; rfl
  | cons b bs ih =>
      intro m0
      simp only [List.map_cons, List.foldl_cons, List.flatten_cons,
        List.foldl_append]
      rw [ih, mapOverride_localToMap]

/-- The sequential overwrite fold binds each key to the last element of the
data carrying that key, falling back to the initial destination. -/
theorem foldl_mapInsert_getLast {κ α : Type} [DecidableEq κ] (keyer : α → κ)
    (data : List α) :
    ∀ (m0 : κ → Option α) (k : κ),
      (data.foldl (fun m x => mapInsert m (keyer x) x) m0) k
        = match (data.filter (fun x => decide (keyer x = k))).getLast? with
          | some v => some v
          | none => m0 k := by
  induction data with
  | nil => intro m0 k; rfl
  | cons x xs ih =>
      intro m0 k
      simp only [List.foldl_cons]
      rw [ih]
      by_cases hx : keyer x = k
      · have hfc : (x :: xs).filter (fun y => decide (keyer y = k))
            = x :: xs.filter (fun y => decide (keyer y = k)) := by
          simp [List.filter_cons, hx]
        rw [hfc, List.getLast?_cons]
        cases hrest : (xs.filter (fun y => decide (keyer y = k))).getLast? with
        | none => simp [hrest, mapInsert, hx]
        | some v => simp [hrest]
      · have hfc : (x :: xs).filter (fun y => decide (keyer y = k))
            = xs.filter (fun y => decide (keyer y = k)) := by
          simp [List.filter_cons, hx]
        rw [hfc]
        cases hrest : (xs.filter (fun y => decide (keyer y = k))).getLast? with
        | none => simp [hrest, mapInsert, Ne.symm hx]
        | some v => simp [hrest]

theorem toMapPar_characterization {κ α : Type} [DecidableEq κ]
    (keyer : α → κ) {deg : Nat} (hdeg : 1 ≤ deg) (data : List α)
    (m0 : κ → Option α) (k : κ) :
    toMapPar keyer deg data m0 k
      = match (data.filter (fun x => decide (keyer x = k))).getLast? with
        | some v => some v
        | none => m0 k := by
  rw [toMapPar, toMapPar_eq_seq_fold, flatten_batches hdeg,
    foldl_mapInsert_getLast]

theorem groupMerge_foldl {κ α : Type} [DecidableEq κ] (keyer : α → κ)
    (b : List α) :
    ∀ (m : κ → List α) (acc : κ → Option (List α)),
      groupMerge acc (b.foldl (fun m x => groupInsert m (keyer x) x) m)
        = b.foldl (groupStep keyer) (groupMerge acc m) := by
  induction b with
  | nil => intro m acc; rfl
  | cons x xs ih =>
      intro m acc
      simp only [List.foldl_cons]
      rw [ih]
      congr 1
      funext k
      simp only [groupMerge, groupInsert, groupStep]
      by_cases hk : k = keyer x
      · subst hk
        by_cases hm : (m (keyer x)).isEmpty
        · have hnil : m (keyer x) = [] := List.isEmpty_iff.mp hm
          simp [hnil]
        · simp [hm, List.append_assoc]
      · simp only [if_neg hk]

theorem groupMerge_localGroup {κ α : Type} [DecidableEq κ] (keyer : α → κ)
    (b : List α) (acc : κ → Option (List α)) :
    groupMerge acc (localGroup keyer b) = b.foldl (groupStep keyer) acc := by
  rw [localGroup, groupMerge_foldl]
  congr 1

theorem groupByPar_eq_seq_fold {κ α : Type} [DecidableEq κ] (keyer : α → κ)
    (bs : List (List α)) :
    ∀ m0 : κ → Option (List α),
      ((bs.map (localGroup keyer)).foldl groupMerge m0)
        = bs.flatten.foldl (groupStep keyer) m0 := by
  induction bs with
  | nil => intro m0; rfl
  | cons b bs ih =>
      intro m0
      simp only [List.map_cons, List.foldl_cons, List.flatten_cons,
        List.foldl_append]
      rw [ih, groupMerge_localGroup]

/-- The sequential append fold binds each key to the destination's prior
list followed by all data elements carrying that key, in data order; keys
carried by no element are untouched. -/
theorem foldl_groupStep_filter {κ α : Type} [DecidableEq κ] (keyer : α → κ)
    (data : List α) :
    ∀ (m0 : κ → Option (List α)) (k : κ),
      (data.foldl (groupStep keyer) m0) k
        = if (data.filter (fun x => decide (keyer x = k))).isEmpty then m0 k
          else some (((m0 k).getD [])
            ++ data.filter (fun x => decide (keyer x = k))) := by
  induction data with
  | nil => intro m0 k; rfl
  | cons x xs ih =>
      intro m0 k
      simp only [List.foldl_cons]
      rw [ih]
      by_cases hx : keyer x = k
      · have hfc : (x :: xs).filter (fun y => decide (keyer y = k))
            = x :: xs.filter (fun y => decide (keyer y = k)) := by
          simp [List.filter_cons, hx]
        rw [hfc]
        by_cases he : (xs.filter (fun y => decide (keyer y = k))).isEmpty
        · have : xs.filter (fun y => decide (keyer y = k)) = [] :=
            List.isEmpty_iff.mp he
          simp [this, groupStep, hx]
        · simp [he, groupStep, hx, List.append_assoc]
      · have hfc : (x :: xs).filter (fun y => decide (keyer y = k))
            = xs.filter (fun y => decide (keyer y = k)) := by
          simp [List.filter_cons, hx]
        rw [hfc]
        have hstep : groupStep keyer m0 x k = m0 k := by
          simp [groupStep, Ne.symm hx]
        rw [hstep]

theorem groupByPar_characterization {κ α : Type} [DecidableEq κ]
    (keyer : α → κ) {deg : Nat} (hdeg : 1 ≤ deg) (data : List α)
    (m0 : κ → Option (List α)) (k : κ) :
    groupByPar keyer deg data m0 k
      = if (data.filter (fun x => decide (keyer x = k))).isEmpty then m0 k
        else some (((m0 k).getD [])
          ++ data.filter (fun x => decide (keyer x = k))) := by
  rw [groupByPar, groupByPar_eq_seq_fold, flatten_batches hdeg,
    foldl_groupStep_filter]

/-- C7: for every evaluated sequence and pure key extractor, `ToMap` (into
an empty destination) binds each key to the single element with the highest
original index among the elements sharing that key — the last element of the
order-preserving filter of the evaluated sequence by that key — and binds no
other keys; per-worker overwrite within a batch plus ascending batch-index
merge with overwrite realizes exactly this last-writer-wins rule. -/
theorem toMap_highest_index_wins {κ α : Type} [DecidableEq κ]
    (s : SliceStreamer α) (keyer : α → κ) (h : 1 ≤ s.ops.parallel)
    (key : κ) :
    s.ToMap keyer (fun _ => none) key
      = (s.scan.filter (fun x => decide (keyer x = key))).getLast? := by
  rw [SliceStreamer.ToMap, toMapPar_characterization keyer h]
  cases hrest : (s.scan.filter (fun x => decide (keyer x = key))).getLast? <;>
    simp

/-- Witness for C7 on the pipeline over `[1, 2, 3, 4]` keyed by parity: the
even key is bound to the last even element. -/
theorem toMap_highest_index_wins_witness :
    1 ≤ (ofSlice [1, 2, 3, 4]).ops.parallel ∧
    (ofSlice [1, 2, 3, 4]).ToMap (fun a => a % 2) (fun _ => none) 0
      = ((ofSlice [1, 2, 3, 4]).scan.filter
          (fun x => decide (x % 2 = 0))).getLast? :=
  ⟨by decide,
   toMap_highest_index_wins (ofSlice [1, 2, 3, 4]) (fun a => a % 2)
     (by decide) 0⟩

/-- C8: `GroupBy` (into an empty destination) partitions the evaluated
sequence completely: a key's group is exactly the order-preserving filter of
the evaluated sequence by that key, every evaluated element appears in the
group of its own key, elements never appear under any other key, and each
group carries each element with its full source multiplicity (so the
multiset union of the groups is the evaluated source multiset); contiguous
batches merged by ascending batch index realize exactly this. -/
theorem groupBy_partitions {κ α : Type} [DecidableEq κ] [DecidableEq α]
    (s : SliceStreamer α) (keyer : α → κ) (h : 1 ≤ s.ops.parallel) :
    (∀ key l, s.GroupBy keyer (fun _ => none) key = some l →
        l = s.scan.filter (fun x => decide (keyer x = key))) ∧
    (∀ x, x ∈ s.scan →
        ∃ l, s.GroupBy keyer (fun _ => none) (keyer x) = some l ∧ x ∈ l) ∧
    (∀ key l x, s.GroupBy keyer (fun _ => none) key = some l → x ∈ l →
        keyer x = key) ∧
    (∀ key l x, s.GroupBy keyer (fun _ => none) key = some l →
        l.count x = if keyer x = key then s.scan.count x else 0) := by
  have hchar : ∀ key, s.GroupBy keyer (fun _ => none) key
      = if (s.scan.filter (fun x => decide (keyer x = key))).isEmpty
        then none
        else some (s.scan.filter (fun x => decide (keyer x = key))) := by
    intro key
    rw [SliceStreamer.GroupBy, groupByPar_characterization keyer h]
    split_ifs <;> simp
  have hsome : ∀ key l, s.GroupBy keyer (fun _ => none) key = some l →
      l = s.scan.filter (fun x => decide (keyer x = key)) := by
    intro key l hl
    rw [hchar key] at hl
    by_cases he : (s.scan.filter (fun x => decide (keyer x = key))).isEmpty
    · rw [if_pos he] at hl; exact absurd hl (by simp)
    · rw [if_neg he] at hl; exact (Option.some_inj.mp hl).symm
  refine ⟨hsome, ?_, ?_, ?_⟩
  · intro x hx
    have hmem : x ∈ s.scan.filter (fun y => decide (keyer y = keyer x)) :=
      List.mem_filter.mpr ⟨hx, by simp⟩
    refine ⟨s.scan.filter (fun y => decide (keyer y = keyer x)), ?_, hmem⟩
    rw [hchar (keyer x), if_neg ?_]
    intro he
    rw [List.isEmpty_iff.mp he] at hmem
    exact absurd hmem (List.not_mem_nil x)
  · intro key l x hl hx
    rw [hsome key l hl] at hx
    exact of_decide_eq_true (List.mem_filter.mp hx).2
  · intro key l x hl
    rw [hsome key l hl]
    by_cases hkx : keyer x = key
    · rw [if_pos hkx]
      exact List.count_filter (by simp [hkx])
    · rw [if_neg hkx]
      refine List.count_eq_zero.mpr ?_
      intro hmem
      exact hkx (of_decide_eq_true (List.mem_filter.mp hmem).2)

/-- Witness for C8 on the pipeline over `[15, 15, 20, 25]` keyed by `·/10`:
the key-1 group is the filtered source, and element 20 is in the group of
its own key. -/
theorem groupBy_partitions_witness :
    1 ≤ (ofSlice [15, 15, 20, 25]).ops.parallel ∧
    [15, 15] = (ofSlice [15, 15, 20, 25]).scan.filter
        (fun x => decide (x / 10 = 1)) ∧
    (∃ l, (ofSlice [15, 15, 20, 25]).GroupBy (fun a => a / 10)
        (fun _ => none) (20 / 10) = some l ∧ 20 ∈ l) :=
  ⟨by decide,
   (groupBy_partitions (ofSlice [15, 15, 20, 25]) (fun a => a / 10)
       (by decide)).1 1 [15, 15] (by decide),
   (groupBy_partitions (ofSlice [15, 15, 20, 25]) (fun a => a / 10)
       (by decide)).2.1 20 (by decide)⟩

/-- C10: `GroupBy` and `ToMap` merge into the caller's destination map
without clearing it: a key carried by no evaluated element keeps exactly its
pre-existing binding in both; for a key carried by some element, `GroupBy`
appends the newly grouped elements after the pre-existing list (an empty
list if the key was absent), and `ToMap` overwrites the binding with the
last evaluated element carrying the key.  (The Go code additionally
allocates a fresh map when the caller passes a typed `nil` map; the
function-valued embedding does not distinguish `nil` from an empty map.) -/
theorem merge_into_destination {κ α : Type} [DecidableEq κ]
    (s : SliceStreamer α) (keyer : α → κ) (h : 1 ≤ s.ops.parallel)
    (m0g : κ → Option (List α)) (m0t : κ → Option α) (key : κ) :
    ((s.scan.filter (fun x => decide (keyer x = key))).isEmpty = true →
        s.GroupBy keyer m0g key = m0g key ∧
        s.ToMap keyer m0t key = m0t key) ∧
    ((s.scan.filter (fun x => decide (keyer x = key))).isEmpty = false →
        s.GroupBy keyer m0g key
          = some (((m0g key).getD [])
              ++ s.scan.filter (fun x => decide (keyer x = key))) ∧
        s.ToMap keyer m0t key
          = (s.scan.filter (fun x => decide (keyer x = key))).getLast?) := by
  constructor
  · intro he
    have hnil : s.scan.filter (fun x => decide (keyer x = key)) = [] :=
      List.isEmpty_iff.mp he
    constructor
    · rw [SliceStreamer.GroupBy, groupByPar_characterization keyer h,
        if_pos he]
    · rw [SliceStreamer.ToMap, toMapPar_characterization keyer h, hnil]
      rfl
  · intro he
    constructor
    · rw [SliceStreamer.GroupBy, groupByPar_characterization keyer h,
        if_neg (by simp [he])]
    · rw [SliceStreamer.ToMap, toMapPar_characterization keyer h]
      cases hrest : (s.scan.filter (fun x => decide (keyer x = key))).getLast?
        with
      | none =>
          have : s.scan.filter (fun x => decide (keyer x = key)) = [] := by
            cases hfil : s.scan.filter (fun x => decide (keyer x = key)) with
            | nil => rfl
            | cons a as =>
                rw [hfil, List.getLast?_cons] at hrest
                exact absurd hrest (by simp)
          rw [this] at he
          exact absurd he (by simp)
      | some v => simp

/-- Witness for C10 on the pipeline over `[1, 2]` keyed by identity, with a
destination holding prior bindings for key 9 (absent from the data) and key
1 (present): key 9's bindings survive untouched, key 1's group gains the
new element after the prior list, and key 1's to-map binding is
overwritten. -/
theorem merge_into_destination_witness :
    ((ofSlice [1, 2]).GroupBy (fun a => a)
        (fun k => if k = 9 then some [99] else if k = 1 then some [5] else none) 9
      = (fun k : Nat =>
          if k = 9 then some [99] else if k = 1 then some [5] else none) 9 ∧
     (ofSlice [1, 2]).ToMap (fun a => a)
        (fun k => if k = 9 then some 99 else none) 9
      = (fun k : Nat => if k = 9 then some 99 else none) 9) ∧
    ((ofSlice [1, 2]).GroupBy (fun a => a)
        (fun k => if k = 9 then some [99] else if k = 1 then some [5] else none) 1
      = some ((((fun k : Nat =>
          if k = 9 then some [99] else if k = 1 then some [5] else none) 1).getD [])
            ++ (ofSlice [1, 2]).scan.filter (fun x => decide (x = 1))) ∧
     (ofSlice [1, 2]).ToMap (fun a => a)
        (fun k => if k = 9 then some 99 else none) 1
      = ((ofSlice [1, 2]).scan.filter (fun x => decide (x = 1))).getLast?) :=
  ⟨(merge_into_destination (ofSlice [1, 2]) (fun a => a) (by decide)
      (fun k => if k = 9 then some [99] else if k = 1 then some [5] else none)
      (fun k => if k = 9 then some 99 else none) 9).1 (by decide),
   (merge_into_destination (ofSlice [1, 2]) (fun a => a) (by decide)
      (fun k => if k = 9 then some [99] else if k = 1 then some [5] else none)
      (fun k => if k = 9 then some 99 else none) 1).2 (by decide)⟩

/-- A fresh root stage with no operations and offset/limit 0 scans to
exactly its data, whatever its parallelism. -/
theorem scan_root_no_ops {α : Type} (d : List α) (p : Nat) :
    (projectedRoot p d).scan = d := by
  unfold projectedRoot SliceStreamer.scan SliceStreamer.windowOf
    SliceStreamer.applyChain applyStage SliceStreamer.ops
  simp

theorem applyFilterStage_eq_seq {κ ν β : Type} (o : MapStageOps κ ν β)
    (hp : 1 ≤ o.parallel) (d : List (κ × ν)) :
    MapStreamer.applyFilterStage o d
      = match o.filterFunc with
        | none => d
        | some fs => d.filter (fun pr => fs.all (fun f => f pr.1 pr.2)) := by
  unfold MapStreamer.applyFilterStage
  cases o.filterFunc with
  | none => rfl
  | some fs =>
      show filterPar (MapStreamer.pairPreds fs) o.parallel d
        = d.filter (fun pr => fs.all (fun f => f pr.1 pr.2))
      rw [filterPar_eq_seq _ hp]
      congr 1
      funext pr
      simp only [MapStreamer.pairPreds]
      induction fs with
      | nil => rfl
      | cons f rest ihf => simp [List.all_cons, ihf]

theorem filteredPairs_eq_seq {κ ν β : Type} (ms : MapStreamer κ ν β)
    (hwf : ms.wfParallel = true) :
    ms.filteredPairs = ms.seqFilteredPairs := by
  induction ms with
  | root o =>
      have hp : 1 ≤ o.parallel := by
        simpa [MapStreamer.wfParallel] using hwf
      rw [MapStreamer.filteredPairs, applyFilterStage_eq_seq o hp,
        MapStreamer.seqFilteredPairs]
  | node o p ih =>
      have hp : 1 ≤ o.parallel ∧ p.wfParallel = true := by
        simpa [MapStreamer.wfParallel] using hwf
      rw [MapStreamer.filteredPairs, applyFilterStage_eq_seq o hp.1,
        MapStreamer.seqFilteredPairs, ih hp.2]

theorem eraseTransforms_filteredPairs {κ ν β : Type}
    (ms : MapStreamer κ ν β) :
    ms.eraseTransforms.filteredPairs = ms.filteredPairs := by
  induction ms with
  | root o => rfl
  | node o p ih =>
      rw [MapStreamer.eraseTransforms, MapStreamer.filteredPairs, ih]
      rfl

/-- C9: for every map-sourced pipeline whose stages have valid parallelism,
`KeysToStream` and `ValuesToStream` walk the stage chain applying only the
filter stages found along the path — erasing every map/flat-map transform on
the chain leaves both projections unchanged — and return a fresh root
sequence pipeline (no parent, no operations, offset/limit 0, the leaf's
parallelism) whose data, and hence whose scan, is the filtered pair
sequence projected to keys, respectively values. -/
theorem keys_values_projection {κ ν β : Type} (ms : MapStreamer κ ν β)
    (hwf : ms.wfParallel = true) :
    ms.KeysToStream
      = projectedRoot ms.mops.parallel (ms.seqFilteredPairs.map Prod.fst) ∧
    ms.ValuesToStream
      = projectedRoot ms.mops.parallel (ms.seqFilteredPairs.map Prod.snd) ∧
    ms.KeysToStream.scan = ms.seqFilteredPairs.map Prod.fst ∧
    ms.ValuesToStream.scan = ms.seqFilteredPairs.map Prod.snd ∧
    ms.eraseTransforms.KeysToStream = ms.KeysToStream ∧
    ms.eraseTransforms.ValuesToStream = ms.ValuesToStream := by
  have hfp : ms.filteredPairs = ms.seqFilteredPairs :=
    filteredPairs_eq_seq ms hwf
  have hmops : ms.eraseTransforms.mops.parallel = ms.mops.parallel := by
    cases ms <;> rfl
  refine ⟨?_, ?_, ?_, ?_, ?_, ?_⟩
  · rw [MapStreamer.KeysToStream, hfp]
  · rw [MapStreamer.ValuesToStream, hfp]
  · rw [MapStreamer.KeysToStream, hfp, scan_root_no_ops]
  · rw [MapStreamer.ValuesToStream, hfp, scan_root_no_ops]
  · rw [MapStreamer.KeysToStream, MapStreamer.KeysToStream,
      eraseTransforms_filteredPairs, hmops]
  · rw [MapStreamer.ValuesToStream, MapStreamer.ValuesToStream,
      eraseTransforms_filteredPairs, hmops]

/-- Witness for C9 on the concrete two-stage `sampleMapPipeline`: the keys
projection scans to the filtered keys, and erasing the map transform changes
nothing. -/
theorem keys_values_projection_witness :
    sampleMapPipeline.KeysToStream.scan
      = sampleMapPipeline.seqFilteredPairs.map Prod.fst ∧
    sampleMapPipeline.eraseTransforms.KeysToStream
      = sampleMapPipeline.KeysToStream :=
  ⟨(keys_values_projection sampleMapPipeline (by decide)).2.2.1,
   (keys_values_projection sampleMapPipeline (by decide)).2.2.2.2.1⟩

end StreamV3
